import Mathlib

/-!
# Verification of the nuspell core data structures and parsers

Shallow embedding of `src/nuspell/structures.cxx` and `src/nuspell/aff_data.cxx`
(namespace `hunspell`/`nuspell`).  Byte strings (`std::string` /
`std::u16string` / `std::basic_string<CharT>`) are modelled as `List Nat`
of code-unit values; machine `size_t` arithmetic is modelled with explicit
wraparound at `2^64`; the throwing branch of `std::basic_string::replace`
is modelled with `Except`.
-/

namespace Nuspell

/-- A C++ string: a list of code-unit values (bytes for `std::string`,
16-bit units for `std::u16string`).  -/
abbrev Str := List Nat

/-- `2^64`, the modulus of `size_t` arithmetic. -/
def UINT64 : Nat := 2 ^ 64

/-- `size_t` subtraction `a - b` for operands below `2^64`: wraps around
when `b > a`, exactly as unsigned arithmetic does. -/
def sizeSub (a b : Nat) : Nat :=
  if b ≤ a then a - b else UINT64 - (b - a)

/-- `s.replace(pos, cnt, r)` of `std::basic_string`: throws
`std::out_of_range` when `pos > s.size()` (modelled as `.error ()`),
otherwise replaces `min(cnt, size - pos)` code units at `pos` by `r`. -/
def cppReplace (s : Str) (pos cnt : Nat) (r : Str) : Except Unit Str :=
  if s.length < pos then .error ()
  else .ok (s.take pos ++ r ++ s.drop (pos + cnt))

/-- Fields shared by `Prefix_Entry` and `Suffix_Entry`
(`structures.hxx` / `structures.cxx`).  The condition regex is not
modelled; no claim refers to it. -/
structure Affix_Entry where
  flag : Nat
  cross_product : Bool
  stripping : Str
  appending : Str

/-- A prefix entry (`Prefix_Entry` in `structures.cxx`). -/
structure Prefix_Entry extends Affix_Entry

/-- A suffix entry (`Suffix_Entry` in `structures.cxx`). -/
structure Suffix_Entry extends Affix_Entry

/-- `Prefix_Entry::to_root`: `word.replace(0, appending.size(), stripping)`.
With position 0 the `std::out_of_range` branch of `replace` is statically
unreachable, so the result is a plain string. -/
def Prefix_Entry.to_root (e : Prefix_Entry) (word : Str) : Str :=
  e.stripping ++ word.drop e.appending.length

/-- `Prefix_Entry::to_derived`: `word.replace(0, stripping.size(), appending)`. -/
def Prefix_Entry.to_derived (e : Prefix_Entry) (word : Str) : Str :=
  e.appending ++ word.drop e.stripping.length

/-- `Suffix_Entry::to_root`:
`word.replace(word.size() - appending.size(), appending.size(), stripping)`.
The position is computed in `size_t` arithmetic with no bounds check. -/
def Suffix_Entry.to_root (e : Suffix_Entry) (word : Str) : Except Unit Str :=
  cppReplace word (sizeSub word.length e.appending.length) e.appending.length
    e.stripping

/-- `Suffix_Entry::to_derived`:
`word.replace(word.size() - stripping.size(), stripping.size(), appending)`. -/
def Suffix_Entry.to_derived (e : Suffix_Entry) (word : Str) : Except Unit Str :=
  cppReplace word (sizeSub word.length e.stripping.length) e.stripping.length
    e.appending

theorem sizeSub_of_le {a b : Nat} (h : b ≤ a) : sizeSub a b = a - b := by
  simp [sizeSub, h]

theorem suffix_to_root_eq (e : Suffix_Entry) (w : Str)
    (h : e.appending.length ≤ w.length) :
    e.to_root w = .ok (w.take (w.length - e.appending.length) ++ e.stripping) := by
  unfold Suffix_Entry.to_root cppReplace
  rw [sizeSub_of_le h]
  have h1 : ¬ w.length < w.length - e.appending.length := by omega
  simp only [if_neg h1]
  have h2 : w.length ≤ w.length - e.appending.length + e.appending.length := by
    omega
  rw [List.drop_eq_nil_of_le h2, List.append_nil]

theorem suffix_to_derived_eq (e : Suffix_Entry) (w : Str)
    (h : e.stripping.length ≤ w.length) :
    e.to_derived w = .ok (w.take (w.length - e.stripping.length) ++ e.appending) := by
  unfold Suffix_Entry.to_derived cppReplace
  rw [sizeSub_of_le h]
  have h1 : ¬ w.length < w.length - e.stripping.length := by omega
  simp only [if_neg h1]
  have h2 : w.length ≤ w.length - e.stripping.length + e.stripping.length := by
    omega
  rw [List.drop_eq_nil_of_le h2, List.append_nil]

/-- **C9.** For every prefix (suffix) affix entry and every word `w` that
starts (ends) with the entry's `append` string, applying `to_root` and then
`to_derived` returns the original word: `to_derived(to_root(w)) == w`. -/
theorem c9_to_derived_to_root :
    (∀ (e : Prefix_Entry) (w : Str), e.appending <+: w →
      e.to_derived (e.to_root w) = w) ∧
    (∀ (e : Suffix_Entry) (w : Str), e.appending <:+ w →
      ∃ r, e.to_root w = .ok r ∧ e.to_derived r = .ok w) := by
  constructor
  · intro e w h
    obtain ⟨t, ht⟩ := h
    simp only [Prefix_Entry.to_root, Prefix_Entry.to_derived]
    rw [List.drop_left, ← ht, List.drop_left]
  · intro e w h
    obtain ⟨t, ht⟩ := h
    have happ : e.appending.length ≤ w.length := by
      rw [← ht]; simp
    refine ⟨w.take (w.length - e.appending.length) ++ e.stripping,
      suffix_to_root_eq e w happ, ?_⟩
    have hlen : (w.take (w.length - e.appending.length) ++ e.stripping).length
        = w.length - e.appending.length + e.stripping.length := by
      simp only [List.length_append, List.length_take]
      omega
    rw [suffix_to_derived_eq _ _ (by rw [hlen]; omega)]
    rw [hlen]
    have hpos : w.length - e.appending.length + e.stripping.length -
        e.stripping.length = w.length - e.appending.length := by omega
    rw [hpos]
    have htake1 : (w.take (w.length - e.appending.length) ++ e.stripping).take
        (w.length - e.appending.length)
        = w.take (w.length - e.appending.length) := by
      apply List.take_left'
      simp only [List.length_take]
      omega
    rw [htake1]
    have htl : t.length = w.length - e.appending.length := by
      rw [← ht]; simp
    rw [← htl, ← ht, List.take_left]

/-- Witness for C9 at a concrete input: prefix entry with strip `"s"`,
append `"a"` on word `"ab"`; suffix entry with the same fields on `"ba"`. -/
theorem c9_witness :
    ([97] : Str) <+: [97, 98] ∧
    (Prefix_Entry.mk ⟨0, false, [115], [97]⟩).to_derived
      ((Prefix_Entry.mk ⟨0, false, [115], [97]⟩).to_root [97, 98]) = [97, 98] ∧
    ([97] : Str) <:+ [98, 97] ∧
    (∃ r, (Suffix_Entry.mk ⟨0, false, [115], [97]⟩).to_root [98, 97] = .ok r ∧
      (Suffix_Entry.mk ⟨0, false, [115], [97]⟩).to_derived r = .ok [98, 97]) :=
  ⟨by decide,
   c9_to_derived_to_root.1 (Prefix_Entry.mk ⟨0, false, [115], [97]⟩) [97, 98]
     (by decide),
   by decide,
   c9_to_derived_to_root.2 (Suffix_Entry.mk ⟨0, false, [115], [97]⟩) [98, 97]
     (by decide)⟩

/-- **C10.** `Suffix_Entry::to_root` and `to_derived` compute the splice
position as `word.size() - appending.size()` (resp. `stripping.size()`)
with no bounds check: the operation succeeds exactly under the
precondition that the word is at least as long as the removed text, and
under that precondition the out-of-range branch of `replace` is
unreachable; when the precondition fails the wrapped `size_t` position
exceeds the word length and the error branch is taken. -/
theorem c10_to_root_bounds :
    (∀ (e : Suffix_Entry) (w : Str), e.appending.length ≤ w.length →
      ∃ r, e.to_root w = .ok r) ∧
    (∀ (e : Suffix_Entry) (w : Str), w.length < e.appending.length →
      e.appending.length < UINT64 → e.to_root w = .error ()) ∧
    (∀ (e : Suffix_Entry) (w : Str), e.stripping.length ≤ w.length →
      ∃ r, e.to_derived w = .ok r) ∧
    (∀ (e : Suffix_Entry) (w : Str), w.length < e.stripping.length →
      e.stripping.length < UINT64 → e.to_derived w = .error ()) := by
  refine ⟨fun e w h => ⟨_, suffix_to_root_eq e w h⟩, ?_,
    fun e w h => ⟨_, suffix_to_derived_eq e w h⟩, ?_⟩
  · intro e w h hsz
    unfold Suffix_Entry.to_root cppReplace sizeSub
    have hn : ¬ e.appending.length ≤ w.length := by omega
    rw [if_neg hn, if_pos (by unfold UINT64 at *; omega)]
  · intro e w h hsz
    unfold Suffix_Entry.to_derived cppReplace sizeSub
    have hn : ¬ e.stripping.length ≤ w.length := by omega
    rw [if_neg hn, if_pos (by unfold UINT64 at *; omega)]

/-- Witness for C10 at concrete inputs: append `"ab"` on the shorter word
`"b"` errors; on `"ab"` it succeeds. -/
theorem c10_witness :
    (∃ r, (Suffix_Entry.mk ⟨0, false, [], [97, 98]⟩).to_root [97, 98] = .ok r) ∧
    (Suffix_Entry.mk ⟨0, false, [], [97, 98]⟩).to_root [98] = .error () ∧
    (∃ r, (Suffix_Entry.mk ⟨0, false, [97], []⟩).to_derived [97] = .ok r) ∧
    (Suffix_Entry.mk ⟨0, false, [97, 98], []⟩).to_derived [98] = .error () :=
  ⟨c10_to_root_bounds.1 (Suffix_Entry.mk ⟨0, false, [], [97, 98]⟩) [97, 98]
     (by decide),
   c10_to_root_bounds.2.1 (Suffix_Entry.mk ⟨0, false, [], [97, 98]⟩) [98]
     (by decide) (by norm_num [UINT64]),
   c10_to_root_bounds.2.2.1 (Suffix_Entry.mk ⟨0, false, [97], []⟩) [97]
     (by decide),
   c10_to_root_bounds.2.2.2 (Suffix_Entry.mk ⟨0, false, [97, 98], []⟩) [98]
     (by decide) (by norm_num [UINT64])⟩

/-! ## Break table (`Break_Table` in `structures.cxx`) -/

/-- `'^'` -/
def caret : Nat := 94
/-- `'$'` -/
def dollar : Nat := 36

/-- `is_start_word_break` lambda in `Break_Table::order_entries`:
`!x.empty() && x[0] == '^'`. -/
def is_start_word_break (x : Str) : Bool :=
  match x with
  | [] => false
  | c :: _ => c == caret

/-- `is_end_word_break` lambda in `Break_Table::order_entries`:
`!x.empty() && x.back() == '$'`. -/
def is_end_word_break (x : Str) : Bool :=
  x.getLast? == some dollar

/-- The observable state of a constructed `Break_Table`: the source keeps a
single vector with two partition-boundary iterators; the three ranges
`start_word_breaks()`, `end_word_breaks()`, `middle_word_breaks()` are
modelled as three lists.  `std::partition` (whose order inside each side is
unspecified) is modelled as the stable `List.partition`. -/
structure Break_Table where
  start_word_breaks : List Str
  end_word_breaks : List Str
  middle_word_breaks : List Str
  deriving DecidableEq

/-- `Break_Table::order_entries`: partition start-anchored patterns to the
front and strip the leading `'^'` (`e.erase(0, 1)`); within the rest,
partition end-anchored patterns next and strip the trailing `'$'`
(`e.pop_back()`); finally `remove_if` empty strings — applied to the range
`[end_word_breaks_last_it, end)`, i.e. to the middle partition only. -/
def order_entries (v : List Str) : Break_Table :=
  let p1 := v.partition is_start_word_break
  let p2 := p1.2.partition is_end_word_break
  { start_word_breaks := p1.1.map (·.drop 1)
    end_word_breaks := p2.1.map (·.dropLast)
    middle_word_breaks := p2.2.filter (fun e => !e.isEmpty) }

/-- `s.find(pat)` of `std::basic_string`, scanning from position `i` with
`fuel` candidate positions remaining (structural recursion on `fuel` so
that the function evaluates by reduction): the smallest position `j ≥ i`
at which `pat` occurs, else `npos` (modelled as `none`). -/
def strFindAux (s pat : Str) (i : Nat) : Nat → Option Nat
  | 0 => none
  | fuel + 1 =>
    if s.length < i + pat.length then none
    else if (s.drop i).take pat.length == pat then some i
    else strFindAux s pat (i + 1) fuel

/-- `s.find(pat)`: `s.length + 1` candidate positions always suffice. -/
def strFind (s pat : Str) : Option Nat := strFindAux s pat 0 (s.length + 1)

/-- First loop of `Break_Table::break_and_spell`
(`for (auto& pat : start_word_breaks())`): if `s.compare(0, pat.size(),
pat) == 0`, probe `s.substr(pat.size())`; return true on the first
successful probe. -/
def spellStartLoop (s : Str) (probe : Str → Bool) : List Str → Bool
  | [] => false
  | pat :: rest =>
    if s.take pat.length == pat then
      if probe (s.drop pat.length) then true else spellStartLoop s probe rest
    else spellStartLoop s probe rest

/-- Second loop of `break_and_spell` (`for (auto& pat : end_word_breaks())`):
skip when `pat.size() > s.size()`; if `s.compare(s.size() - pat.size(),
pat.size(), pat) == 0`, probe `s.substr(pat.size())` — note the argument
removes `pat.size()` code units from the *front* of `s`. -/
def spellEndLoop (s : Str) (probe : Str → Bool) : List Str → Bool
  | [] => false
  | pat :: rest =>
    if pat.length ≤ s.length ∧ s.drop (s.length - pat.length) = pat then
      if probe (s.drop pat.length) then true else spellEndLoop s probe rest
    else spellEndLoop s probe rest

/-- Third loop of `break_and_spell` (`for (auto& pat :
middle_word_breaks())`): `i = s.find(pat)`; when `i > 0 && i < s.size() -
pat.size()` (in `size_t` arithmetic; `i = npos` never passes, as `npos <
s.size() - pat.size()` is false for every operand combination), split at
the first occurrence and require both parts to probe. -/
def spellMidLoop (s : Str) (probe : Str → Bool) : List Str → Bool
  | [] => false
  | pat :: rest =>
    match strFind s pat with
    | some i =>
      if 0 < i ∧ i < s.length - pat.length then
        if probe (s.take i) then
          if probe (s.drop (i + pat.length)) then true
          else spellMidLoop s probe rest
        else spellMidLoop s probe rest
      else spellMidLoop s probe rest
    | none => spellMidLoop s probe rest

/-- `Break_Table::break_and_spell(s, spell_func)`. -/
def break_and_spell (bt : Break_Table) (s : Str) (probe : Str → Bool) : Bool :=
  spellStartLoop s probe bt.start_word_breaks ||
  spellEndLoop s probe bt.end_word_breaks ||
  spellMidLoop s probe bt.middle_word_breaks

/-- `spellStartLoop` instrumented to also return the arguments of every
probe call made, in call order. -/
def spellStartLoopT (s : Str) (probe : Str → Bool) : List Str → Bool × List Str
  | [] => (false, [])
  | pat :: rest =>
    if s.take pat.length == pat then
      if probe (s.drop pat.length) then (true, [s.drop pat.length])
      else
        let r := spellStartLoopT s probe rest
        (r.1, s.drop pat.length :: r.2)
    else spellStartLoopT s probe rest

/-- `spellEndLoop` instrumented with the probe-call trace. -/
def spellEndLoopT (s : Str) (probe : Str → Bool) : List Str → Bool × List Str
  | [] => (false, [])
  | pat :: rest =>
    if pat.length ≤ s.length ∧ s.drop (s.length - pat.length) = pat then
      if probe (s.drop pat.length) then (true, [s.drop pat.length])
      else
        let r := spellEndLoopT s probe rest
        (r.1, s.drop pat.length :: r.2)
    else spellEndLoopT s probe rest

/-- `spellMidLoop` instrumented with the probe-call trace. -/
def spellMidLoopT (s : Str) (probe : Str → Bool) : List Str → Bool × List Str
  | [] => (false, [])
  | pat :: rest =>
    match strFind s pat with
    | some i =>
      if 0 < i ∧ i < s.length - pat.length then
        if probe (s.take i) then
          if probe (s.drop (i + pat.length)) then
            (true, [s.take i, s.drop (i + pat.length)])
          else
            let r := spellMidLoopT s probe rest
            (r.1, s.take i :: s.drop (i + pat.length) :: r.2)
        else
          let r := spellMidLoopT s probe rest
          (r.1, s.take i :: r.2)
      else spellMidLoopT s probe rest
    | none => spellMidLoopT s probe rest

/-- `break_and_spell` instrumented with the probe-call trace. -/
def break_and_spell_trace (bt : Break_Table) (s : Str) (probe : Str → Bool) :
    Bool × List Str :=
  let r1 := spellStartLoopT s probe bt.start_word_breaks
  if r1.1 then (true, r1.2)
  else
    let r2 := spellEndLoopT s probe bt.end_word_breaks
    if r2.1 then (true, r1.2 ++ r2.2)
    else
      let r3 := spellMidLoopT s probe bt.middle_word_breaks
      (r3.1, r1.2 ++ r2.2 ++ r3.2)

/-- **C1** (refuting theorem).  With break table `["^-", "-$", "-"]` and
input `"a-"` (`[97, 45]`), `break_and_spell` makes exactly one probe call,
and its argument is `"-"` (`[45]`) — `s.substr(pat.size())`, the string
with the pattern's length removed from the *front* — not `"a"` (`[97]`),
the remainder after removing the matched end-break pattern from the tail. -/
theorem c1_end_break_probes_wrong_remainder (probe : Str → Bool) :
    break_and_spell_trace (order_entries [[caret, 45], [45, dollar], [45]])
        [97, 45] probe = (probe [45], [[45]]) ∧
    ([45] : Str) ≠ [97] := by
  refine ⟨?_, by decide⟩
  have hbt : order_entries [[caret, 45], [45, dollar], [45]]
      = ⟨[[45]], [[45]], [[45]]⟩ := by decide
  rw [hbt]
  cases hp : probe [45] <;>
    simp +decide [break_and_spell_trace, spellStartLoopT, spellEndLoopT,
      spellMidLoopT, strFind, strFindAux, hp]

/-- The start loop returns true iff some start pattern matches and its
probe succeeds. -/
theorem spellStartLoop_eq_any (s : Str) (probe : Str → Bool) (l : List Str) :
    spellStartLoop s probe l =
      l.any fun pat => (s.take pat.length == pat) && probe (s.drop pat.length) := by
  induction l with
  | nil => rfl
  | cons pat rest ih =>
    simp only [spellStartLoop, List.any_cons, ih]
    cases hc : (s.take pat.length == pat) <;>
      simp [hc] <;>
      cases hp : probe (s.drop pat.length) <;> simp [hp]

/-- The end loop returns true iff some end pattern matches at the tail and
the probe of `s.substr(pat.size())` succeeds. -/
theorem spellEndLoop_eq_any (s : Str) (probe : Str → Bool) (l : List Str) :
    spellEndLoop s probe l =
      l.any fun pat =>
        decide (pat.length ≤ s.length ∧ s.drop (s.length - pat.length) = pat)
          && probe (s.drop pat.length) := by
  induction l with
  | nil => rfl
  | cons pat rest ih =>
    simp only [spellEndLoop, List.any_cons, ih]
    by_cases hc : pat.length ≤ s.length ∧ s.drop (s.length - pat.length) = pat <;>
      simp [hc] <;>
      cases hp : probe (s.drop pat.length) <;> simp [hp]

/-- The middle loop returns true iff for some middle pattern the *first*
occurrence (`s.find(pat)`) lies strictly inside `s` and both surrounding
parts probe successfully. -/
theorem spellMidLoop_eq_any (s : Str) (probe : Str → Bool) (l : List Str) :
    spellMidLoop s probe l =
      l.any fun pat =>
        match strFind s pat with
        | some i => decide (0 < i ∧ i < s.length - pat.length)
            && probe (s.take i) && probe (s.drop (i + pat.length))
        | none => false := by
  induction l with
  | nil => rfl
  | cons pat rest ih =>
    simp only [spellMidLoop, List.any_cons, ih]
    cases hf : strFind s pat with
    | none => simp
    | some i =>
      by_cases hc : 0 < i ∧ i < s.length - pat.length <;> simp [hc] <;>
        cases hp : probe (s.take i) <;> simp [hp] <;>
        cases hq : probe (s.drop (i + pat.length)) <;> simp [hq]

/-- A pattern occurs in `s` at position `i`. -/
def occursAt (s pat : Str) (i : Nat) : Prop :=
  i + pat.length ≤ s.length ∧ (s.drop i).take pat.length = pat

instance (s pat : Str) (i : Nat) : Decidable (occursAt s pat i) := by
  unfold occursAt; infer_instance

theorem strFindAux_eq_some (s pat : Str) (fuel : Nat) :
    ∀ i j, s.length + 1 ≤ i + fuel →
      (strFindAux s pat i fuel = some j ↔
        occursAt s pat j ∧ i ≤ j ∧ ∀ k, i ≤ k → k < j → ¬ occursAt s pat k) := by
  induction fuel with
  | zero =>
    intro i j hfuel
    simp only [strFindAux]
    constructor
    · intro h
      exact Option.noConfusion h
    · rintro ⟨hocc, hij, -⟩
      exact absurd hocc.1 (by omega)
  | succ fuel ih =>
    intro i j hfuel
    rw [strFindAux]
    by_cases hgt : s.length < i + pat.length
    · rw [if_pos hgt]
      constructor
      · intro h
        exact Option.noConfusion h
      · rintro ⟨hocc, hij, -⟩
        exact absurd hocc.1 (by omega)
    · rw [if_neg hgt]
      by_cases heq : (s.drop i).take pat.length = pat
      · rw [if_pos (by simpa using heq)]
        constructor
        · rintro ⟨rfl⟩
          exact ⟨⟨by omega, heq⟩, le_refl _, fun k h1 h2 => by omega⟩
        · rintro ⟨hocc, hij, hmin⟩
          rcases Nat.eq_or_lt_of_le hij with rfl | hlt
          · rfl
          · exact absurd ⟨by omega, heq⟩ (hmin i (le_refl i) hlt)
      · rw [if_neg (by simpa using heq)]
        rw [ih (i + 1) j (by omega)]
        constructor
        · rintro ⟨hocc, hij, hmin⟩
          refine ⟨hocc, by omega, fun k h1 h2 => ?_⟩
          rcases Nat.eq_or_lt_of_le h1 with rfl | hlt
          · rintro ⟨-, hk⟩
            exact heq hk
          · exact hmin k hlt h2
        · rintro ⟨hocc, hij, hmin⟩
          have hij' : i + 1 ≤ j := by
            rcases Nat.eq_or_lt_of_le hij with rfl | h
            · exact absurd hocc.2 heq
            · omega
          exact ⟨hocc, hij', fun k h1 h2 => hmin k (by omega) h2⟩

/-- `strFind s pat` returns exactly the least position at which `pat`
occurs in `s` (and `none` when there is no occurrence). -/
theorem strFind_eq_some (s pat : Str) (j : Nat) :
    strFind s pat = some j ↔
      occursAt s pat j ∧ ∀ k, k < j → ¬ occursAt s pat k := by
  rw [strFind, strFindAux_eq_some s pat (s.length + 1) 0 j (by omega)]
  constructor
  · rintro ⟨hocc, -, hmin⟩
    exact ⟨hocc, fun k hk => hmin k (Nat.zero_le k) hk⟩
  · rintro ⟨hocc, hmin⟩
    exact ⟨hocc, Nat.zero_le j, fun k _ hk => hmin k hk⟩

/-- **C3** (counterexample).  Break table `["-"]`, input `"-a-b"`
(`[45, 97, 45, 98]`), constant-true probe: the pattern `"-"` occurs
strictly inside at position 2 (`0 < 2` and `2 + 1 < 4`), and both parts
probe true, yet `break_and_spell` returns `false`: only the *first*
occurrence (position 0, not strictly inside) is ever tried. -/
theorem c3_counterexample :
    break_and_spell (order_entries [[45]]) [45, 97, 45, 98] (fun _ => true)
        = false ∧
    occursAt [45, 97, 45, 98] [45] 2 ∧ 0 < 2 ∧ 2 + 1 < 4 := by
  refine ⟨?_, by decide, by decide, by decide⟩
  decide

/-- **C3** (amended theorem).  For every constructed break table, string
`s` and probe, `break_and_spell` returns true iff a start break matches
with a successful probe, or an end break matches with a successful probe,
or some middle pattern's *first* occurrence (`s.find`, characterised by
`strFind_eq_some` as the least occurrence position) lies strictly
inside `s` and both surrounding parts probe successfully; it is false
otherwise.  Occurrences after the first are never tried. -/
theorem c3_middle_first_occurrence_only (v : List Str) (s : Str)
    (probe : Str → Bool) :
    break_and_spell (order_entries v) s probe =
      (((order_entries v).start_word_breaks.any fun pat =>
          (s.take pat.length == pat) && probe (s.drop pat.length)) ||
        ((order_entries v).end_word_breaks.any fun pat =>
          decide (pat.length ≤ s.length ∧ s.drop (s.length - pat.length) = pat)
            && probe (s.drop pat.length)) ||
        ((order_entries v).middle_word_breaks.any fun pat =>
          match strFind s pat with
          | some i => decide (0 < i ∧ i < s.length - pat.length)
              && probe (s.take i) && probe (s.drop (i + pat.length))
          | none => false)) := by
  unfold break_and_spell
  rw [spellStartLoop_eq_any, spellEndLoop_eq_any, spellMidLoop_eq_any]

/-- **C5** (counterexample).  `Break_Table` construction from `["^"]`
leaves the empty pattern in the start partition; from `["^^"]` it leaves
an entry that still begins with `'^'`; from `["$"]` it leaves the empty
pattern in the end partition.  Emptied patterns are removed only from the
middle partition. -/
theorem c5_counterexample :
    ([] : Str) ∈ (order_entries [[caret]]).start_word_breaks ∧
    [caret] ∈ (order_entries [[caret, caret]]).start_word_breaks ∧
    ([] : Str) ∈ (order_entries [[dollar]]).end_word_breaks := by
  decide

/-- **C5** (amended theorem).  Provided no input pattern equals `"^"` or
`"$"`, none begins with `"^^"` and none ends with `"$$"`, the constructed
partitions satisfy the claimed invariants: the start partition has no
empty entry and no entry beginning with `'^'`, the end partition has no
empty entry and no entry ending with `'$'`; the middle partition always
has no empty entry (its empty strings are removed unconditionally). -/
theorem c5_order_entries_invariants (v : List Str)
    (h : ∀ p ∈ v, p ≠ [caret] ∧ p ≠ [dollar] ∧
      ¬ ([caret, caret] <+: p) ∧ ¬ ([dollar, dollar] <:+ p)) :
    (∀ e ∈ (order_entries v).start_word_breaks,
      e ≠ [] ∧ e.head? ≠ some caret) ∧
    (∀ e ∈ (order_entries v).end_word_breaks,
      e ≠ [] ∧ e.getLast? ≠ some dollar) ∧
    (∀ e ∈ (order_entries v).middle_word_breaks, e ≠ []) := by
  unfold order_entries
  simp only [List.partition_eq_filter_filter]
  refine ⟨?_, ?_, ?_⟩
  · intro e he
    rw [List.mem_map] at he
    obtain ⟨p, hp, rfl⟩ := he
    rw [List.mem_filter] at hp
    obtain ⟨hpv, hps⟩ := hp
    obtain ⟨hne1, -, hne3, -⟩ := h p hpv
    match p, hps with
    | c :: t, hps =>
      have hc : c = caret := by
        simpa [is_start_word_break] using hps
      subst hc
      constructor
      · intro ht
        simp only [List.drop_one, List.tail_cons] at ht
        exact hne1 (by rw [ht])
      · intro hh
        simp only [List.drop_one, List.tail_cons] at hh
        match t, hh with
        | c' :: t', hh =>
          have : c' = caret := by simpa using hh
          subst this
          exact hne3 ⟨t', rfl⟩
  · intro e he
    rw [List.mem_map] at he
    obtain ⟨p, hp, rfl⟩ := he
    rw [List.mem_filter] at hp
    obtain ⟨hp2, hpe⟩ := hp
    rw [List.mem_filter] at hp2
    obtain ⟨hpv, -⟩ := hp2
    obtain ⟨-, hne2, -, hne4⟩ := h p hpv
    have hpne : p ≠ [] := by
      rintro rfl
      simp [is_end_word_break] at hpe
    have hlast : p.getLast hpne = dollar := by
      have := hpe
      simp only [is_end_word_break, beq_iff_eq, List.getLast?_eq_getLast p hpne]
        at this
      simpa using this
    have hpdecomp : p.dropLast ++ [dollar] = p := by
      rw [← hlast]
      exact List.dropLast_append_getLast hpne
    constructor
    · intro hd
      rw [hd] at hpdecomp
      exact hne2 (by rw [← hpdecomp]; rfl)
    · intro hh
      have hdne : p.dropLast ≠ [] := by
        rintro hd
        rw [hd] at hh
        simp at hh
      have hlast2 : p.dropLast.getLast hdne = dollar := by
        rw [List.getLast?_eq_getLast _ hdne] at hh
        simpa using hh
      have : p.dropLast.dropLast ++ [dollar] = p.dropLast := by
        rw [← hlast2]
        exact List.dropLast_append_getLast hdne
      apply hne4
      refine ⟨p.dropLast.dropLast, ?_⟩
      rw [← hpdecomp, ← this]
      simp
  · intro e he
    rw [List.mem_filter] at he
    obtain ⟨-, hne⟩ := he
    simpa using hne

/-- Witness for C5 at the default break table `["-", "^-", "-$"]`. -/
theorem c5_witness :
    (∀ p ∈ ([[45], [caret, 45], [45, dollar]] : List Str),
      p ≠ [caret] ∧ p ≠ [dollar] ∧
      ¬ ([caret, caret] <+: p) ∧ ¬ ([dollar, dollar] <:+ p)) ∧
    ((∀ e ∈ (order_entries [[45], [caret, 45], [45, dollar]]).start_word_breaks,
      e ≠ [] ∧ e.head? ≠ some caret) ∧
    (∀ e ∈ (order_entries [[45], [caret, 45], [45, dollar]]).end_word_breaks,
      e ≠ [] ∧ e.getLast? ≠ some dollar) ∧
    (∀ e ∈ (order_entries [[45], [caret, 45], [45, dollar]]).middle_word_breaks,
      e ≠ [])) :=
  ⟨by decide, c5_order_entries_invariants [[45], [caret, 45], [45, dollar]]
    (by decide)⟩

/-! ## Substring replacer (`Substr_Replacer` in `structures.cxx`) -/

/-- Three-way lexicographic comparison of C++ strings
(`basic_string::compare`): element-wise, with the shorter prefix ordered
first. -/
def scmp : Str → Str → Ordering
  | [], [] => .eq
  | [], _ :: _ => .lt
  | _ :: _, [] => .gt
  | a :: as, b :: bs =>
    if a < b then .lt else if b < a then .gt else scmp as bs

theorem scmp_cons_cons (a b : Nat) (as bs : Str) :
    scmp (a :: as) (b :: bs) =
      if a < b then .lt else if b < a then .gt else scmp as bs := rfl

theorem scmp_self : ∀ a : Str, scmp a a = .eq
  | [] => rfl
  | a :: as => by
    rw [scmp_cons_cons, if_neg (lt_irrefl a), if_neg (lt_irrefl a)]
    exact scmp_self as

theorem scmp_eq_iff : ∀ a b : Str, scmp a b = .eq ↔ a = b
  | [], [] => by simp [scmp]
  | [], _ :: _ => by simp [scmp]
  | _ :: _, [] => by simp [scmp]
  | a :: as, b :: bs => by
    rw [scmp_cons_cons]
    by_cases h1 : a < b
    · simp only [if_pos h1]
      constructor
      · intro h; exact Ordering.noConfusion h
      · intro h
        injection h with h1' h2'
        omega
    · by_cases h2 : b < a
      · simp only [if_neg h1, if_pos h2]
        constructor
        · intro h; exact Ordering.noConfusion h
        · intro h
          injection h with h1' h2'
          omega
      · have hab : a = b := by omega
        subst hab
        simp only [if_neg h1, if_neg h2, scmp_eq_iff as bs]
        constructor
        · rintro rfl; rfl
        · intro h
          injection h

theorem scmp_swap : ∀ a b : Str, scmp b a = (scmp a b).swap
  | [], [] => rfl
  | [], _ :: _ => rfl
  | _ :: _, [] => rfl
  | a :: as, b :: bs => by
    rw [scmp_cons_cons, scmp_cons_cons]
    by_cases h1 : a < b
    · simp [h1, show ¬ b < a by omega, Ordering.swap]
    · by_cases h2 : b < a
      · simp [h1, h2, Ordering.swap]
      · simp [h1, h2, scmp_swap as bs]

theorem scmp_lt_trans : ∀ {a b c : Str},
    scmp a b = .lt → scmp b c = .lt → scmp a c = .lt
  | [], b, c, h1, h2 => by
    match c, h2 with
    | [], h2 =>
      match b, h1, h2 with
      | [], h1, _ => exact Ordering.noConfusion h1
      | _ :: _, _, h2 => exact Ordering.noConfusion h2
    | _ :: _, _ => rfl
  | a :: as, b, c, h1, h2 => by
    match b, h1 with
    | [], h1 => exact Ordering.noConfusion h1
    | b :: bs, h1 =>
      match c, h2 with
      | [], h2 => exact Ordering.noConfusion h2
      | c :: cs, h2 =>
        rw [scmp_cons_cons] at h1 h2 ⊢
        by_cases hab : a < b
        · by_cases hbc : b < c
          · rw [if_pos (by omega)]
          · rw [if_neg hbc] at h2
            by_cases hcb : c < b
            · rw [if_pos hcb] at h2
              exact Ordering.noConfusion h2
            · have : b = c := by omega
              subst this
              rw [if_pos hab]
        · rw [if_neg hab] at h1
          by_cases hba : b < a
          · rw [if_pos hba] at h1
            exact Ordering.noConfusion h1
          · have : a = b := by omega
            subst this
            by_cases hbc : a < c
            · rw [if_pos hbc]
            · rw [if_neg hbc] at h2 ⊢
              by_cases hcb : c < a
              · rw [if_pos hcb] at h2
                exact Ordering.noConfusion h2
              · rw [if_neg hcb] at h2 ⊢
                rw [if_neg hab] at h1
                exact scmp_lt_trans h1 h2

theorem scmp_gt_iff_lt (a b : Str) : scmp a b = .gt ↔ scmp b a = .lt := by
  rw [scmp_swap b a]
  cases h : scmp b a <;> simp [h, Ordering.swap]

theorem scmp_le_antisymm {a b : Str}
    (h1 : scmp a b ≠ .gt) (h2 : scmp b a ≠ .gt) : a = b := by
  cases h : scmp a b with
  | eq => exact (scmp_eq_iff a b).mp h
  | lt => exact absurd ((scmp_gt_iff_lt b a).mpr h) h2
  | gt => exact absurd h h1

theorem scmp_le_trans {a b c : Str}
    (h1 : scmp a b ≠ .gt) (h2 : scmp b c ≠ .gt) : scmp a c ≠ .gt := by
  cases hab : scmp a b with
  | gt => exact absurd hab h1
  | eq => rwa [(scmp_eq_iff a b).mp hab]
  | lt =>
    cases hbc : scmp b c with
    | gt => exact absurd hbc h2
    | eq => rw [← (scmp_eq_iff b c).mp hbc]; simp [hab]
    | lt => simp [scmp_lt_trans hab hbc]

theorem scmp_lt_of_lt_of_le {a b c : Str}
    (h1 : scmp a b = .lt) (h2 : scmp b c ≠ .gt) : scmp a c = .lt := by
  cases hbc : scmp b c with
  | gt => exact absurd hbc h2
  | eq => rwa [← (scmp_eq_iff b c).mp hbc]
  | lt => exact scmp_lt_trans h1 hbc

theorem scmp_lt_of_le_of_lt {a b c : Str}
    (h1 : scmp a b ≠ .gt) (h2 : scmp b c = .lt) : scmp a c = .lt := by
  cases hab : scmp a b with
  | gt => exact absurd hab h1
  | eq => rwa [(scmp_eq_iff a b).mp hab]
  | lt => exact scmp_lt_trans hab h2

/-- A prefix of a string never compares greater than it. -/
theorem prefix_scmp_ne_gt : ∀ {a b : Str}, a <+: b → scmp a b ≠ .gt
  | [], [], _ => by simp [scmp]
  | [], _ :: _, _ => by simp [scmp]
  | a :: as, b, h => by
    match b, h with
    | b :: bs, h =>
      obtain ⟨rfl, h'⟩ := List.cons_prefix_cons.mp h
      rw [scmp_cons_cons, if_neg (lt_irrefl a), if_neg (lt_irrefl a)]
      exact prefix_scmp_ne_gt h'

/-- Two prefixes of the same string are comparable. -/
theorem prefix_total {a b s : Str} (ha : a <+: s) (hb : b <+: s) :
    a <+: b ∨ b <+: a := by
  rcases Nat.le_total a.length b.length with h | h
  · left
    rw [List.prefix_iff_eq_take] at ha hb ⊢
    rw [hb, List.take_take, Nat.min_eq_left h]
    exact ha
  · right
    rw [List.prefix_iff_eq_take] at ha hb ⊢
    rw [ha, List.take_take, Nat.min_eq_left h]
    exact hb

/-- `Comparer_Str_Rep::cmp_prefix_of(p, of)`
(`p.compare(0, p.npos, of.data(), 0, min(p.size(), of.size()))`): compare
the whole of `p` against the first `p.size()` code units of `of`. -/
def cmpPrefixOf (p of : Str) : Ordering := scmp p (of.take p.length)

/-- `cmp_prefix_of(p, s) == 0` exactly when `p` is a prefix of `s`. -/
theorem cmpPrefixOf_eq_iff (p s : Str) :
    cmpPrefixOf p s = .eq ↔ p <+: s := by
  rw [cmpPrefixOf, scmp_eq_iff, List.prefix_iff_eq_take]

/-- The truncated comparison is greater exactly when the full comparison
is: the upper-bound predicate of `find_match` coincides with `s < key`. -/
theorem cmpPrefixOf_gt_iff : ∀ p s : Str,
    cmpPrefixOf p s = .gt ↔ scmp p s = .gt
  | [], [] => by simp [cmpPrefixOf, scmp]
  | [], _ :: _ => by simp [cmpPrefixOf, scmp]
  | _ :: _, [] => by simp [cmpPrefixOf, scmp]
  | a :: as, b :: bs => by
    show scmp (a :: as) (b :: List.take as.length bs) = .gt ↔ _
    rw [scmp_cons_cons, scmp_cons_cons]
    by_cases h1 : a < b
    · rw [if_pos h1, if_pos h1]
    · by_cases h2 : b < a
      · rw [if_neg h1, if_pos h2, if_neg h1, if_pos h2]
      · rw [if_neg h1, if_neg h2, if_neg h1, if_neg h2]
        exact cmpPrefixOf_gt_iff as bs

/-- A `(pattern, replacement)` pair of the `Substr_Replacer` table. -/
abbrev SRPair := Str × Str

/-- The comparator `a.first < b.first` of `Substr_Replacer::sort_uniq`,
as a non-strict relation (used for sortedness of the result). -/
def KeyLe (a b : SRPair) : Prop := scmp a.1 b.1 ≠ .gt

/-- Strict key order. -/
def KeyLt (a b : SRPair) : Prop := scmp a.1 b.1 = .lt

instance (a b : SRPair) : Decidable (KeyLe a b) := by unfold KeyLe; infer_instance

instance (a b : SRPair) : Decidable (KeyLt a b) := by unfold KeyLt; infer_instance

/-- The guarantee the C++ standard gives for the `std::sort` call of
`Substr_Replacer::sort_uniq` with comparator `a.first < b.first`: the
output is a permutation of the input that is sorted by key.  The relative
order of elements with *equal* keys is unspecified — `std::sort` is not
stable — so the sort step is modelled by this contract, and any statement
that depends on the order of equal keys must hold for every conforming
output. -/
def IsCppSortOutput (v w : List SRPair) : Prop :=
  v.Perm w ∧ w.Pairwise KeyLe

instance (v w : List SRPair) : Decidable (IsCppSortOutput v w) := by
  unfold IsCppSortOutput; infer_instance

/-- Insert into a sorted list, before the first element that is not
smaller: one step of `sortTableP`. -/
def orderedInsertP (x : SRPair) : List SRPair → List SRPair
  | [] => [x]
  | y :: ys =>
    if scmp x.1 y.1 ≠ .gt then x :: y :: ys else y :: orderedInsertP x ys

/-- An executable insertion sort by `first`, used to evaluate `sort_uniq`
on concrete tables.  This is *one* conforming outcome of the `std::sort`
contract (`sortTableP_conforms`); it is not the model of `std::sort`
itself, whose equal-key order is unspecified (`IsCppSortOutput`). -/
def sortTableP : List SRPair → List SRPair
  | [] => []
  | x :: xs => orderedInsertP x (sortTableP xs)

/-- `std::unique` sweep: drop each element whose key equals the key of the
last kept element. -/
def uniqAux (cur : SRPair) : List SRPair → List SRPair
  | [] => []
  | y :: ys => if cur.1 == y.1 then uniqAux cur ys else y :: uniqAux y ys

/-- `std::unique` with predicate `a.first == b.first`: keeps the first
element of every run of equal keys. -/
def uniqAdjacentP : List SRPair → List SRPair
  | [] => []
  | x :: rest => x :: uniqAux x rest

/-- The final step of `Substr_Replacer::sort_uniq`: remove the front
entry when its key is the empty string. -/
def dropFrontEmptyKey : List SRPair → List SRPair
  | [] => []
  | (k, r) :: rest => if k.isEmpty then rest else (k, r) :: rest

/-- `Substr_Replacer::sort_uniq`, run by every constructor and assignment
operator: sort by pattern, collapse duplicate patterns (`std::unique`
keeps the first of each equal-key run *of the sorted sequence*), drop an
empty-string pattern.  The sort step here is the executable conforming
instance `sortTableP`; which of several pairs sharing a pattern survives
in the C++ original depends on the equal-key order `std::sort` happened
to produce. -/
def sort_uniq (l : List SRPair) : List SRPair :=
  dropFrontEmptyKey (uniqAdjacentP (sortTableP l))

theorem mem_orderedInsertP {z x : SRPair} :
    ∀ {l : List SRPair}, z ∈ orderedInsertP x l ↔ z = x ∨ z ∈ l
  | [] => by simp [orderedInsertP]
  | y :: ys => by
    rw [orderedInsertP]
    split
    · simp
    · rw [List.mem_cons, List.mem_cons, mem_orderedInsertP]
      tauto

theorem pairwise_orderedInsertP (x : SRPair) :
    ∀ {l : List SRPair}, l.Pairwise KeyLe → (orderedInsertP x l).Pairwise KeyLe
  | [], _ => List.pairwise_singleton _ _
  | y :: ys, h => by
    rw [orderedInsertP]
    rw [List.pairwise_cons] at h
    obtain ⟨hy, hys⟩ := h
    split
    · rename_i hle
      rw [List.pairwise_cons]
      refine ⟨?_, List.pairwise_cons.mpr ⟨hy, hys⟩⟩
      intro z hz
      rcases List.mem_cons.mp hz with rfl | hz'
      · exact hle
      · exact scmp_le_trans hle (hy z hz')
    · rename_i hgt
      rw [not_not] at hgt
      rw [List.pairwise_cons]
      constructor
      · intro z hz
        rcases mem_orderedInsertP.mp hz with rfl | hz'
        · show scmp y.1 z.1 ≠ .gt
          intro hc
          rw [scmp_gt_iff_lt] at hc hgt
          exact absurd (scmp_lt_trans hgt hc)
            (by rw [scmp_self]; intro h; exact Ordering.noConfusion h)
        · exact hy z hz'
      · exact pairwise_orderedInsertP x hys

theorem pairwise_sortTableP : ∀ l : List SRPair, (sortTableP l).Pairwise KeyLe
  | [] => List.Pairwise.nil
  | x :: xs => pairwise_orderedInsertP x (pairwise_sortTableP xs)

theorem perm_orderedInsertP (x : SRPair) :
    ∀ l : List SRPair, (orderedInsertP x l).Perm (x :: l)
  | [] => List.Perm.refl _
  | y :: ys => by
    rw [orderedInsertP]
    split
    · exact List.Perm.refl _
    · exact ((perm_orderedInsertP x ys).cons y).trans (List.Perm.swap x y ys)

theorem perm_sortTableP : ∀ l : List SRPair, (sortTableP l).Perm l
  | [] => List.Perm.refl _
  | x :: xs =>
    (perm_orderedInsertP x (sortTableP xs)).trans ((perm_sortTableP xs).cons x)

/-- The executable sort is one conforming outcome of the `std::sort`
contract. -/
theorem sortTableP_conforms (v : List SRPair) :
    IsCppSortOutput v (sortTableP v) :=
  ⟨(perm_sortTableP v).symm, pairwise_sortTableP v⟩

theorem uniqAux_eq_dropWhile (cur : SRPair) :
    ∀ l : List SRPair,
      uniqAux cur l = uniqAdjacentP (l.dropWhile (fun q => q.1 == cur.1))
  | [] => rfl
  | y :: ys => by
    rw [uniqAux, List.dropWhile_cons]
    by_cases h : y.1 == cur.1
    · have h' : cur.1 == y.1 := by
        rw [beq_iff_eq] at h ⊢
        exact h.symm
      rw [if_pos h', if_pos h]
      exact uniqAux_eq_dropWhile cur ys
    · have h' : ¬ (cur.1 == y.1) := by
        rw [beq_iff_eq] at h ⊢
        intro hc
        exact h hc.symm
      rw [if_neg h', if_neg h]
      rfl

theorem uniqAux_subset {z cur : SRPair} :
    ∀ {l : List SRPair}, z ∈ uniqAux cur l → z ∈ l
  | [], h => by simpa [uniqAux] using h
  | y :: ys, h => by
    rw [uniqAux] at h
    split at h
    · exact List.mem_cons_of_mem y (uniqAux_subset h)
    · rcases List.mem_cons.mp h with rfl | h'
      · exact List.mem_cons_self _ _
      · exact List.mem_cons_of_mem y (uniqAux_subset h')

theorem uniqAdjacentP_subset {z : SRPair} {l : List SRPair}
    (h : z ∈ uniqAdjacentP l) : z ∈ l := by
  match l with
  | [] => simpa [uniqAdjacentP] using h
  | x :: rest =>
    rcases List.mem_cons.mp h with rfl | h'
    · exact List.mem_cons_self _ _
    · exact List.mem_cons_of_mem x (uniqAux_subset h')

/-- Under sortedness, the part dropped by `dropWhile (key == x.1)` removes
*all* elements with key `x.1` from the remainder. -/
theorem sorted_dropWhile_key :
    ∀ {x : SRPair} {rest : List SRPair}, (x :: rest).Pairwise KeyLe →
      ∀ q ∈ rest.dropWhile (fun q => q.1 == x.1), q.1 ≠ x.1
  | _, [], _ => by simp
  | x, y :: ys, hp => by
    intro q hq
    rw [List.dropWhile_cons] at hq
    rw [List.pairwise_cons] at hp
    obtain ⟨hx, hys⟩ := hp
    split at hq
    · rename_i hy
      rw [beq_iff_eq] at hy
      have hp' : (x :: ys).Pairwise KeyLe := by
        rw [List.pairwise_cons]
        rw [List.pairwise_cons] at hys
        exact ⟨fun z hz => hx z (List.mem_cons_of_mem y hz), hys.2⟩
      exact sorted_dropWhile_key hp' q hq
    · rename_i hy
      rw [beq_iff_eq] at hy
      rcases List.mem_cons.mp hq with rfl | hq'
      · exact hy
      · -- x ≤ y, y ≤ q, y ≠ x forces q ≠ x
        intro hc
        have hxy : KeyLe x y := hx y (List.mem_cons_self _ _)
        have hyq : KeyLe y q := (List.pairwise_cons.mp hys).1 q hq'
        have : y.1 = x.1 := by
          apply scmp_le_antisymm _ hxy
          show scmp y.1 x.1 ≠ .gt
          rw [← hc]
          exact hyq
        exact hy this

theorem find?_dropWhile_eq {pr pk : SRPair → Bool}
    (h : ∀ q, pr q = true → pk q = false) :
    ∀ l : List SRPair, l.find? pk = (l.dropWhile pr).find? pk
  | [] => rfl
  | y :: ys => by
    rw [List.dropWhile_cons]
    split
    · rename_i hy
      rw [List.find?_cons, h y hy]
      exact find?_dropWhile_eq h ys
    · rfl

theorem mem_uniqAdjacentP :
    ∀ (l : List SRPair), l.Pairwise KeyLe → ∀ p : SRPair,
      (p ∈ uniqAdjacentP l ↔ l.find? (fun q => q.1 == p.1) = some p)
  | [], _, p => by simp [uniqAdjacentP]
  | x :: rest, hp, p => by
    rw [show uniqAdjacentP (x :: rest) = x :: uniqAux x rest from rfl,
      uniqAux_eq_dropWhile, List.find?_cons]
    have hdw : (rest.dropWhile (fun q => q.1 == x.1)).length ≤ rest.length :=
      (List.dropWhile_sublist _).length_le
    have hsub : (rest.dropWhile (fun q => q.1 == x.1)).Sublist rest :=
      List.dropWhile_sublist _
    have hsorted : (rest.dropWhile (fun q => q.1 == x.1)).Pairwise KeyLe :=
      ((List.pairwise_cons.mp hp).2).sublist hsub
    by_cases hkey : x.1 = p.1
    · have hb : (x.1 == p.1) = true := beq_iff_eq.mpr hkey
      simp only [hb]
      constructor
      · intro hmem
        rcases List.mem_cons.mp hmem with rfl | h'
        · rfl
        · exfalso
          have hin := uniqAdjacentP_subset h'
          exact sorted_dropWhile_key hp p hin hkey.symm
      · intro hsome
        injection hsome with h
        subst h
        exact List.mem_cons_self _ _
    · have hb : (x.1 == p.1) = false := by simpa using hkey
      simp only [hb]
      have hstep : rest.find? (fun q => q.1 == p.1) =
          (rest.dropWhile (fun q => q.1 == x.1)).find? (fun q => q.1 == p.1) := by
        apply find?_dropWhile_eq
        intro q hq
        rw [beq_iff_eq] at hq
        simp only [beq_eq_false_iff_ne, ne_eq]
        rw [hq]
        exact hkey
      rw [hstep, ← mem_uniqAdjacentP _ hsorted p]
      constructor
      · intro hmem
        rcases List.mem_cons.mp hmem with rfl | h'
        · exact absurd rfl hkey
        · exact h'
      · intro h'
        exact List.mem_cons_of_mem x h'
termination_by l => l.length
decreasing_by
  simp only [List.length_cons]
  exact Nat.lt_succ_of_le (List.Sublist.length_le (List.dropWhile_sublist _))

theorem pairwise_keyLt_uniqAdjacentP :
    ∀ (l : List SRPair), l.Pairwise KeyLe →
      (uniqAdjacentP l).Pairwise KeyLt
  | [], _ => List.Pairwise.nil
  | x :: rest, hp => by
    rw [show uniqAdjacentP (x :: rest) = x :: uniqAux x rest from rfl,
      uniqAux_eq_dropWhile]
    have hsub : (rest.dropWhile (fun q => q.1 == x.1)).Sublist rest :=
      List.dropWhile_sublist _
    have hsorted : (rest.dropWhile (fun q => q.1 == x.1)).Pairwise KeyLe :=
      ((List.pairwise_cons.mp hp).2).sublist hsub
    rw [List.pairwise_cons]
    constructor
    · intro z hz
      have hzin := uniqAdjacentP_subset hz
      have hne := sorted_dropWhile_key hp z hzin
      have hle : KeyLe x z :=
        (List.pairwise_cons.mp hp).1 z (hsub.subset hzin)
      show scmp x.1 z.1 = .lt
      cases h : scmp x.1 z.1 with
      | lt => rfl
      | eq => exact absurd ((scmp_eq_iff _ _).mp h).symm hne
      | gt => exact absurd h hle
    · exact pairwise_keyLt_uniqAdjacentP _ hsorted
termination_by l => l.length
decreasing_by
  simp only [List.length_cons]
  exact Nat.lt_succ_of_le (List.Sublist.length_le (List.dropWhile_sublist _))

theorem mem_dropFrontEmptyKey {t : List SRPair} (ht : t.Pairwise KeyLt)
    (p : SRPair) :
    p ∈ dropFrontEmptyKey t ↔ p ∈ t ∧ p.1 ≠ [] := by
  match t with
  | [] => simp [dropFrontEmptyKey]
  | (k, r) :: rest =>
    rw [dropFrontEmptyKey]
    rw [List.pairwise_cons] at ht
    split
    · rename_i hk
      have hk' : k = [] := by simpa [List.isEmpty_iff] using hk
      subst hk'
      constructor
      · intro hmem
        refine ⟨List.mem_cons_of_mem _ hmem, ?_⟩
        have h2 : scmp ([] : Str) p.1 = .lt := ht.1 p hmem
        intro hc
        rw [hc] at h2
        simp [scmp] at h2
      · rintro ⟨hmem, hne⟩
        rcases List.mem_cons.mp hmem with rfl | h'
        · exact absurd rfl hne
        · exact h'
    · rename_i hk
      have hk' : k ≠ [] := by simpa [List.isEmpty_iff] using hk
      constructor
      · intro hmem
        refine ⟨hmem, ?_⟩
        rcases List.mem_cons.mp hmem with rfl | h'
        · exact hk'
        · have h2 : scmp k p.1 = .lt := ht.1 p h'
          intro hc
          rw [hc] at h2
          match k, hk', h2 with
          | _ :: _, _, h2 => simp [scmp] at h2
      · rintro ⟨hmem, -⟩
        exact hmem

theorem pairwise_dropFrontEmptyKey {t : List SRPair}
    (ht : t.Pairwise KeyLt) : (dropFrontEmptyKey t).Pairwise KeyLt := by
  match t, ht with
  | [], _ => exact List.Pairwise.nil
  | (k, r) :: rest, ht =>
    rw [dropFrontEmptyKey]
    split
    · exact (List.pairwise_cons.mp ht).2
    · exact ht

/-- **C6** (counterexample).  `std::sort` promises only a sorted
permutation; the order of pairs with equal keys is unspecified.  For the
input `[("a","1"), ("a","2")]`, the reversed sequence
`[("a","2"), ("a","1")]` is a conforming sort output, and the subsequent
`unique`/erase steps then keep `("a","2")` — not `("a","1")`, the pair
listed first in the input, which is what `find?` selects.  So the code
does not guarantee that the first-listed pair survives. -/
theorem c6_counterexample :
    IsCppSortOutput [([97], [49]), ([97], [50])] [([97], [50]), ([97], [49])] ∧
    dropFrontEmptyKey (uniqAdjacentP [([97], [50]), ([97], [49])])
      = [([97], [50])] ∧
    List.find? (fun q => q.1 == [97]) [([97], [49]), ([97], [50])]
      = some ([97], [49]) ∧
    (([97], [50]) : SRPair) ≠ ([97], [49]) := by
  refine ⟨by decide, by decide, by decide, by decide⟩

/-- **C6** (amended theorem).  For every input sequence `v` and every
conforming `std::sort` output `ws` of it, the constructed table
`dropFrontEmptyKey (uniqAdjacentP ws)` is strictly sorted by pattern
(hence has no duplicate patterns), contains no empty pattern, consists
only of input pairs, and represents every distinct non-empty input
pattern by exactly one entry.  Which of several input pairs sharing a
pattern survives is unspecified (see `c6_counterexample`); the
executable `sortTableP` is one conforming outcome. -/
theorem c6_sort_uniq_contract (v ws : List SRPair)
    (hs : IsCppSortOutput v ws) :
    (dropFrontEmptyKey (uniqAdjacentP ws)).Pairwise KeyLt ∧
    (∀ p ∈ dropFrontEmptyKey (uniqAdjacentP ws), p.1 ≠ [] ∧ p ∈ v) ∧
    (∀ q ∈ v, q.1 ≠ [] →
      ∃ p ∈ dropFrontEmptyKey (uniqAdjacentP ws), p.1 = q.1) ∧
    IsCppSortOutput v (sortTableP v) := by
  obtain ⟨hperm, hsorted⟩ := hs
  have huniq := pairwise_keyLt_uniqAdjacentP ws hsorted
  refine ⟨pairwise_dropFrontEmptyKey huniq, ?_, ?_, sortTableP_conforms v⟩
  · intro p hp
    rw [mem_dropFrontEmptyKey huniq p] at hp
    exact ⟨hp.2, hperm.mem_iff.mpr (uniqAdjacentP_subset hp.1)⟩
  · intro q hq hqne
    have hqws : q ∈ ws := hperm.mem_iff.mp hq
    have hex : ∃ x, x ∈ ws ∧ (fun e : SRPair => e.1 == q.1) x =
        true := ⟨q, hqws, by simp⟩
    have hsome : (ws.find? (fun e => e.1 == q.1)).isSome :=
      List.find?_isSome.mpr hex
    obtain ⟨p, hp⟩ := Option.isSome_iff_exists.mp hsome
    have hpkey : p.1 = q.1 := by simpa using List.find?_some hp
    have hpfind : ws.find? (fun e => e.1 == p.1) = some p := by
      rw [hpkey]
      exact hp
    have hpmem : p ∈ uniqAdjacentP ws :=
      (mem_uniqAdjacentP ws hsorted p).mpr hpfind
    refine ⟨p, (mem_dropFrontEmptyKey huniq p).mpr ⟨hpmem, ?_⟩, hpkey⟩
    rw [hpkey]
    exact hqne

/-- Witness for C6 at a concrete input: the conforming (here stable)
sort output of `[("b","2"), ("a","1"), ("","4"), ("a","3")]`. -/
theorem c6_witness :
    IsCppSortOutput
      [([98], [50]), ([97], [49]), ([], [52]), ([97], [51])]
      [([], [52]), ([97], [49]), ([97], [51]), ([98], [50])] ∧
    ((dropFrontEmptyKey (uniqAdjacentP
        [([], [52]), ([97], [49]), ([97], [51]), ([98], [50])])).Pairwise
          KeyLt ∧
      (∀ p ∈ dropFrontEmptyKey (uniqAdjacentP
          [([], [52]), ([97], [49]), ([97], [51]), ([98], [50])]),
        p.1 ≠ [] ∧ p ∈ [([98], [50]), ([97], [49]), ([], [52]), ([97], [51])]) ∧
      (∀ q ∈ [([98], [50]), ([97], [49]), ([], [52]), ([97], [51])],
        q.1 ≠ [] →
        ∃ p ∈ dropFrontEmptyKey (uniqAdjacentP
          [([], [52]), ([97], [49]), ([97], [51]), ([98], [50])]),
          p.1 = q.1) ∧
      IsCppSortOutput [([98], [50]), ([97], [49]), ([], [52]), ([97], [51])]
        (sortTableP [([98], [50]), ([97], [49]), ([], [52]), ([97], [51])])) :=
  ⟨by decide,
   c6_sort_uniq_contract
     [([98], [50]), ([97], [49]), ([], [52]), ([97], [51])]
     [([], [52]), ([97], [49]), ([97], [51]), ([98], [50])] (by decide)⟩

/-- The partition point computed by `std::upper_bound` in `find_match`:
the index of the first element whose key compares greater than `s` under
`cmp_prefix_of` (the list length when there is none).  On the sorted
tables `Substr_Replacer` maintains this is exactly what the binary search
returns. -/
def ubAux (s : Str) : List SRPair → Nat
  | [] => 0
  | e :: rest => if cmpPrefixOf e.1 s = .gt then 0 else ubAux s rest + 1

theorem ubAux_le_length (s : Str) : ∀ l : List SRPair, ubAux s l ≤ l.length
  | [] => le_refl 0
  | e :: rest => by
    rw [ubAux]
    split
    · simp
    · simpa using ubAux_le_length s rest

theorem ubAux_getElem (s : Str) :
    ∀ (l : List SRPair) (i : Nat) (hi : i < l.length), i = ubAux s l →
      cmpPrefixOf (l[i]).1 s = .gt
  | e :: rest, i, hi, hieq => by
    by_cases hgt : cmpPrefixOf e.1 s = .gt
    · have hu : ubAux s (e :: rest) = 0 := by simp [ubAux, hgt]
      rw [hu] at hieq
      subst hieq
      simpa using hgt
    · have hu : ubAux s (e :: rest) = ubAux s rest + 1 := by simp [ubAux, hgt]
      rw [hu] at hieq
      subst hieq
      simp only [List.getElem_cons_succ]
      have hb : ubAux s rest < rest.length := by
        simp only [List.length_cons] at hi
        omega
      exact ubAux_getElem s rest (ubAux s rest) hb rfl

theorem ubAux_drop_self (s : Str) :
    ∀ t : List SRPair, ubAux s (t.drop (ubAux s t)) = 0
  | [] => rfl
  | e :: rest => by
    rw [ubAux]
    split
    · rename_i hgt
      rw [List.drop_zero, ubAux, if_pos hgt]
    · rw [List.drop_succ_cons]
      exact ubAux_drop_self s rest

/-- The loop of `find_match` (`structures.cxx`): repeatedly take
`upper_bound` of the remaining range, step back one element, record it
as the last match if it compares equal under `cmp_prefix_of`, and
continue past it; stop when the range is exhausted or the element
compares unequal.  `fuel` bounds the number of iterations;
`t.length + 1` always suffices since `it` strictly increases. -/
def find_match_go (t : List SRPair) (s : Str) (it : Nat) (last : Option SRPair) :
    Nat → Option SRPair
  | 0 => last
  | fuel + 1 =>
    let ub := it + ubAux s (t.drop it)
    if ub = it then last
    else
      match t[ub - 1]? with
      | some e =>
        if cmpPrefixOf e.1 s = .eq then find_match_go t s ub (some e) fuel
        else last
      | none => last

/-- `find_match(t, s)` from `structures.cxx`: the iterator result
`end(t)` is modelled as `none`. -/
def find_match (t : List SRPair) (s : Str) : Option SRPair :=
  find_match_go t s 0 none (t.length + 1)

theorem find_match_go_at_ub (t : List SRPair) (s : Str) (e : SRPair)
    (fuel : Nat) :
    find_match_go t s (ubAux s t) (some e) (fuel + 1) = some e := by
  simp [find_match_go, ubAux_drop_self]

/-- Net effect of the `find_match` loop: the element just before the
(first) partition point, if it compares equal under `cmp_prefix_of`;
no match otherwise. -/
theorem find_match_eq (t : List SRPair) (s : Str) :
    find_match t s =
      if ubAux s t = 0 then none
      else
        match t[ubAux s t - 1]? with
        | some e => if cmpPrefixOf e.1 s = .eq then some e else none
        | none => none := by
  unfold find_match
  simp only [find_match_go, List.drop_zero, Nat.zero_add]
  by_cases h0 : ubAux s t = 0
  · rw [if_pos h0, if_pos h0]
  · rw [if_neg h0, if_neg h0]
    cases he : t[ubAux s t - 1]? with
    | none => rfl
    | some e =>
      show (if cmpPrefixOf e.1 s = .eq
          then find_match_go t s (ubAux s t) (some e) t.length else none)
        = (if cmpPrefixOf e.1 s = .eq then some e else none)
      by_cases heq : cmpPrefixOf e.1 s = .eq
      · rw [if_pos heq, if_pos heq]
        have hlen : 1 ≤ t.length := by
          have h1 : ubAux s t ≤ t.length := ubAux_le_length s t
          omega
        match t, hlen with
        | hd :: tl, _ =>
          show find_match_go (hd :: tl) s (ubAux s (hd :: tl)) (some e)
            (tl.length + 1) = some e
          exact find_match_go_at_ub (hd :: tl) s e tl.length
      · rw [if_neg heq, if_neg heq]

/-- Soundness of `find_match` on a strictly key-sorted table: a returned
match is an element of the table, its key is a prefix of `s`, and no
table key that is a prefix of `s` is longer. -/
theorem find_match_longest (t : List SRPair) (s : Str) (e : SRPair)
    (hsort : t.Pairwise KeyLt) (hfm : find_match t s = some e) :
    e ∈ t ∧ e.1 <+: s ∧ ∀ q ∈ t, q.1 <+: s → q.1.length ≤ e.1.length := by
  rw [find_match_eq] at hfm
  by_cases h0 : ubAux s t = 0
  · rw [if_pos h0] at hfm
    exact Option.noConfusion hfm
  · rw [if_neg h0] at hfm
    cases he : t[ubAux s t - 1]? with
    | none =>
      rw [he] at hfm
      exact Option.noConfusion hfm
    | some q0 =>
      rw [he] at hfm
      have hfm' : (if cmpPrefixOf q0.1 s = .eq then some q0 else none)
          = some e := hfm
      by_cases heq : cmpPrefixOf q0.1 s = .eq
      · rw [if_pos heq] at hfm'
        injection hfm' with hq0
        subst hq0
        rw [List.getElem?_eq_some] at he
        obtain ⟨hi0, hi0e⟩ := he
        have hepre : q0.1 <+: s := (cmpPrefixOf_eq_iff _ _).mp heq
        refine ⟨hi0e ▸ List.getElem_mem hi0, hepre, ?_⟩
        intro q hq hqpre
        obtain ⟨j, hj, rfl⟩ := List.mem_iff_getElem.mp hq
        have hqne : cmpPrefixOf (t[j]).1 s ≠ .gt := by
          rw [(cmpPrefixOf_eq_iff (t[j]).1 s).mpr hqpre]
          intro hc
          exact Ordering.noConfusion hc
        have hjlt : j < ubAux s t := by
          by_contra hge
          push_neg at hge
          have hub_lt : ubAux s t < t.length := Nat.lt_of_le_of_lt hge hj
          have hpred := ubAux_getElem s t (ubAux s t) hub_lt rfl
          rcases Nat.eq_or_lt_of_le hge with heqj | hltj
          · subst heqj
            exact hqne hpred
          · have hkey := List.pairwise_iff_getElem.mp hsort
              (ubAux s t) j hub_lt hj hltj
            have h1 : scmp (t[ubAux s t]).1 s = .gt :=
              (cmpPrefixOf_gt_iff _ _).mp hpred
            have h2 : scmp s (t[ubAux s t]).1 = .lt :=
              (scmp_gt_iff_lt _ _).mp h1
            have h3 : scmp s (t[j]).1 = .lt := scmp_lt_trans h2 hkey
            have h4 : scmp (t[j]).1 s = .gt := (scmp_gt_iff_lt _ _).mpr h3
            exact hqne ((cmpPrefixOf_gt_iff _ _).mpr h4)
        rcases Nat.eq_or_lt_of_le (Nat.le_sub_one_of_lt hjlt) with heqj | hltj
        · have h8 : t[j] = q0 := by
            have h9 : t[j]? = t[ubAux s t - 1]? := by rw [heqj]
            rw [List.getElem?_eq_getElem hj,
              List.getElem?_eq_getElem hi0] at h9
            injection h9 with h10
            rw [h10, hi0e]
          rw [h8]
        · have hkey := List.pairwise_iff_getElem.mp hsort
            j (ubAux s t - 1) hj hi0 hltj
          have hq0j : scmp (t[j]).1 q0.1 = .lt := by
            have h10 : (t[ubAux s t - 1]).1 = q0.1 := by rw [hi0e]
            rw [← h10]
            exact hkey
          rcases prefix_total hqpre hepre with hqe | heq'
          · exact hqe.length_le
          · exfalso
            exact prefix_scmp_ne_gt heq' ((scmp_gt_iff_lt _ _).mpr hq0j)
      · rw [if_neg heq] at hfm'
        exact Option.noConfusion hfm'

/-- The scan loop of `Substr_Replacer::replace`: at position `i` look for
a match of the remaining suffix; on a match splice the replacement in
(`s.replace(i, match.first.size(), match.second)`, position `i ≤ size` so
the throwing branch is unreachable) and jump past it; otherwise advance
one position.  `fuel` bounds the number of iterations; `s.length + 1`
suffices whenever the table has no empty pattern (each iteration then
strictly decreases `s.length - i`); a table with an empty pattern and
empty replacement would loop forever in the C++ original. -/
def replaceLoop (t : List SRPair) : Str → Nat → Nat → Str
  | s, _, 0 => s
  | s, i, fuel + 1 =>
    if i < s.length then
      match find_match t (s.drop i) with
      | some e =>
          replaceLoop t (s.take i ++ e.2 ++ s.drop (i + e.1.length))
            (i + e.2.length) fuel
      | none => replaceLoop t s (i + 1) fuel
    else s

/-- `Substr_Replacer::replace` on an already-normalized table (the class
invariant guarantees the table has passed `sort_uniq`). -/
def substr_replace (t : List SRPair) (s : Str) : Str :=
  if t.isEmpty then s else replaceLoop t s 0 (s.length + 1)

/-- Modelled from the spec (§4.4), for comparison only: "At each position
`i`, find the longest table key that is a prefix of `s[i..]`."  Scans the
whole table for the longest prefix-matching key. -/
def specFindLongest (t : List SRPair) (suf : Str) : Option SRPair :=
  t.foldl
    (fun best e =>
      if e.1.isPrefixOf suf then
        match best with
        | none => some e
        | some b => if b.1.length < e.1.length then some e else some b
      else best)
    none

/-- Modelled from the spec (§4.4), for comparison only: the scan loop
with the spec's longest-prefix matcher in place of `find_match`. -/
def specReplaceLoop (t : List SRPair) : Str → Nat → Nat → Str
  | s, _, 0 => s
  | s, i, fuel + 1 =>
    if i < s.length then
      match specFindLongest t (s.drop i) with
      | some e =>
          specReplaceLoop t (s.take i ++ e.2 ++ s.drop (i + e.1.length))
            (i + e.2.length) fuel
      | none => specReplaceLoop t s (i + 1) fuel
    else s

/-- Modelled from the spec (§4.4), for comparison only. -/
def spec_replace (t : List SRPair) (s : Str) : Str :=
  if t.isEmpty then s else specReplaceLoop t s 0 (s.length + 1)

/-- **C7** (counterexample).  Constructed table
`[("a","X"), ("aa","Y")]`, input `"ab"`: the longest (indeed only) table
key that is a prefix of `"ab"` is `"a"`, so the claimed scan yields
`"Xb"`; but `find_match`'s binary-search walk steps back to `"aa"`,
which is not a prefix, and gives up, so the code's `replace` leaves
`"ab"` unchanged. -/
theorem c7_counterexample :
    substr_replace (sort_uniq [([97], [88]), ([97, 97], [89])]) [97, 98]
        = [97, 98] ∧
    spec_replace (sort_uniq [([97], [88]), ([97, 97], [89])]) [97, 98]
        = [88, 98] ∧
    ([97, 98] : Str) ≠ [88, 98] := by
  refine ⟨?_, ?_, by decide⟩ <;> decide

/-- **C7** (amended theorem).  On every strictly key-sorted table (the
invariant of every constructed `Substr_Replacer`), a match reported by
`find_match` is sound: its key is a prefix of the suffix and no
prefix-matching table key is longer — but a position may report *no*
match even though some shorter key is a prefix (see
`c7_counterexample`).  The replacement scan splices the reported match
and advances past the replacement, else advances one position; in
particular the table `[("a","X"), ("ab","YY"), ("abc","Z")]` applied to
`"abcab"` yields `"ZYY"`. -/
theorem c7_replace_longest_sound :
    (∀ (t : List SRPair) (s : Str) (e : SRPair), t.Pairwise KeyLt →
      find_match t s = some e →
      e ∈ t ∧ e.1 <+: s ∧ ∀ q ∈ t, q.1 <+: s → q.1.length ≤ e.1.length) ∧
    substr_replace
      (sort_uniq [([97], [88]), ([97, 98], [89, 89]), ([97, 98, 99], [90])])
      [97, 98, 99, 97, 98] = [90, 89, 89] :=
  ⟨find_match_longest, by decide⟩

/-- Witness for C7 at a concrete input: the one-entry table
`[("a","X")]` with suffix `"ab"`. -/
theorem c7_witness :
    List.Pairwise KeyLt [(([97] : Str), ([88] : Str))] ∧
    find_match [(([97] : Str), ([88] : Str))] [97, 98] = some ([97], [88]) ∧
    (([97], [88]) ∈ [(([97] : Str), ([88] : Str))] ∧
      ([97] : Str) <+: [97, 98] ∧
      ∀ q ∈ [(([97] : Str), ([88] : Str))], q.1 <+: [97, 98] →
        q.1.length ≤ ([97] : Str).length) :=
  ⟨by decide, by decide,
   c7_replace_longest_sound.1 [(([97] : Str), ([88] : Str))] [97, 98]
     ([97], [88]) (by decide) (by decide)⟩

/-! ## Input streams and the flag codec (`aff_data.cxx`) -/

/-- Whitespace of the classic (`"C"`) locale: `' '` and `'\t'..'\r'`. -/
def isSpaceB (c : Nat) : Bool := c == 32 || (decide (9 ≤ c) && decide (c ≤ 13))

/-- An ASCII decimal digit. -/
def isDigitB (c : Nat) : Bool := decide (48 ≤ c) && decide (c ≤ 57)

/-- A `std::istream` positioned in a line: the remaining characters and
the fail bit (reaching the end of data models EOF). -/
structure IStream where
  data : List Nat
  fail : Bool
  deriving DecidableEq

/-- `in >> s` for a string: skip whitespace, read a non-empty run of
non-whitespace characters; set the fail bit when there is none. -/
def readToken (st : IStream) : Option Str × IStream :=
  if st.fail then (none, st)
  else
    let d := st.data.dropWhile isSpaceB
    let tok := d.takeWhile (fun c => !isSpaceB c)
    if tok.isEmpty then (none, { data := d, fail := true })
    else (some tok, { data := d.drop tok.length, fail := false })

/-- `in >> x` for `unsigned short`: skip whitespace, parse an optional
sign and digits.  No digits → fail bit.  A negative value other than
`-0`, or a value above `USHRT_MAX`, does not fit: the extraction sets the
fail bit (C++11 also stores `USHRT_MAX`, which no caller reads). -/
def readUShort (st : IStream) : Option Nat × IStream :=
  if st.fail then (none, st)
  else
    let d := st.data.dropWhile isSpaceB
    let neg := match d with
      | 45 :: _ => true
      | _ => false
    let d1 := match d with
      | 45 :: rest => rest
      | 43 :: rest => rest
      | _ => d
    let digits := d1.takeWhile isDigitB
    if digits.isEmpty then (none, { data := d, fail := true })
    else
      let v := digits.foldl (fun acc c => acc * 10 + (c - 48)) 0
      let rest := d1.drop digits.length
      if neg then
        if v == 0 then (some 0, { data := rest, fail := false })
        else (none, { data := rest, fail := true })
      else if 65535 < v then (none, { data := rest, fail := true })
      else (some v, { data := rest, fail := false })

/-- `in >> i` for `size_t`: as `readUShort` but 64-bit; a negated value
wraps modulo `2^64` without failing (C++ unsigned conversion). -/
def readSizeT (st : IStream) : Option Nat × IStream :=
  if st.fail then (none, st)
  else
    let d := st.data.dropWhile isSpaceB
    let neg := match d with
      | 45 :: _ => true
      | _ => false
    let d1 := match d with
      | 45 :: rest => rest
      | 43 :: rest => rest
      | _ => d
    let digits := d1.takeWhile isDigitB
    if digits.isEmpty then (none, { data := d, fail := true })
    else
      let v := digits.foldl (fun acc c => acc * 10 + (c - 48)) 0
      let rest := d1.drop digits.length
      if UINT64 ≤ v then (none, { data := rest, fail := true })
      else if neg then
        (some ((UINT64 - v) % UINT64), { data := rest, fail := false })
      else (some v, { data := rest, fail := false })

/-- `Flag_Type` from `aff_data.hxx`. -/
inductive Flag_Type where
  | FLAG_SINGLE_CHAR
  | FLAG_DOUBLE_CHAR
  | FLAG_NUMBER
  | FLAG_UTF8
  deriving DecidableEq

/-- `Encoding` from `aff_data.hxx`: a case-normalized label. -/
structure Encoding where
  name : Str
  deriving DecidableEq

/-- The label `"UTF-8"`. -/
def utf8Label : Str := [85, 84, 70, 45, 56]

/-- `Encoding::is_utf8`. -/
def Encoding.is_utf8 (e : Encoding) : Bool := e.name == utf8Label

/-- `Encoding("UTF-8")`. -/
def encUTF8 : Encoding := ⟨utf8Label⟩

/-- Result of `decode_flags`: either the emitted flag sequence
(`u16string ret`) or process termination — the `FLAG_SINGLE_CHAR` branch
calls `exit(0)` when no flag token can be read
(`aff_data.cxx:192`). -/
inductive FlagsOutcome where
  | emitted (flags : List Nat)
  | terminated
  deriving DecidableEq

/-- `DOUBLE_CHAR` packing: consume bytes pairwise high-byte first
(`(c1 << 8) | c2`); an odd trailing byte becomes a flag on its own. -/
def pairBytes : List Nat → List Nat
  | c1 :: c2 :: rest => (c1 * 256 + c2) :: pairBytes rest
  | [c] => [c]
  | [] => []

/-- Models `boost::locale::conv::utf_to_utf<char32_t>` with the default
(skip) error policy as used by `decode_flags`: decode UTF-8 to scalar
values, skipping bytes of malformed sequences (external library code,
not part of the repository sources). -/
def utf8DecodeAux : Nat → List Nat → List Nat
  | 0, _ => []
  | _, [] => []
  | fuel + 1, b :: rest =>
    if b < 128 then b :: utf8DecodeAux fuel rest
    else if 194 ≤ b && b ≤ 223 then
      match rest with
      | c :: rest2 =>
        if 128 ≤ c && c ≤ 191 then
          ((b - 192) * 64 + (c - 128)) :: utf8DecodeAux fuel rest2
        else utf8DecodeAux fuel rest
      | [] => []
    else if 224 ≤ b && b ≤ 239 then
      match rest with
      | c1 :: c2 :: rest2 =>
        if ((b == 224 && 160 ≤ c1 || b == 237 && c1 ≤ 159 && 128 ≤ c1 ||
              b != 224 && b != 237 && 128 ≤ c1) && c1 ≤ 191) &&
            (128 ≤ c2 && c2 ≤ 191) then
          ((b - 224) * 4096 + (c1 - 128) * 64 + (c2 - 128))
            :: utf8DecodeAux fuel rest2
        else utf8DecodeAux fuel rest
      | _ => []
    else if 240 ≤ b && b ≤ 244 then
      match rest with
      | c1 :: c2 :: c3 :: rest2 =>
        if ((b == 240 && 144 ≤ c1 || b == 244 && c1 ≤ 143 && 128 ≤ c1 ||
              b != 240 && b != 244 && 128 ≤ c1) && c1 ≤ 191) &&
            (128 ≤ c2 && c2 ≤ 191) && (128 ≤ c3 && c3 ≤ 191) then
          ((b - 240) * 262144 + (c1 - 128) * 4096 + (c2 - 128) * 64 +
            (c3 - 128)) :: utf8DecodeAux fuel rest2
        else utf8DecodeAux fuel rest
      | _ => []
    else utf8DecodeAux fuel rest

/-- UTF-8 decoding entry point; the list length bounds the number of
steps. -/
def utf8Decode (l : List Nat) : List Nat := utf8DecodeAux l.length l

/-- The comma chain of the `FLAG_NUMBER` branch: while the stream is good
and the next character is `','`, consume it and read another number;
stop (leaving the fail bit set) when the number is missing.  `fuel`
bounds the iterations; the data length suffices since every iteration
consumes at least the comma. -/
def numberCommaLoop (st : IStream) : Nat → List Nat × IStream
  | 0 => ([], st)
  | fuel + 1 =>
    if st.fail then ([], st)
    else
      match st.data with
      | [] => ([], st)
      | c :: rest =>
        if c == 44 then
          match readUShort { data := rest, fail := false } with
          | (some f, st') =>
            let r := numberCommaLoop st' fuel
            (f :: r.1, r.2)
          | (none, st') => ([], st')
        else ([], st)

/-- `decode_flags` (`aff_data.cxx`).  Warnings do not affect the value
and are not modelled; the `exit(0)` of the `FLAG_SINGLE_CHAR`
missing-token branch is `FlagsOutcome.terminated`.  `latin1_to_ucs2`
zero-extends each byte, the identity on byte values.  The `FLAG_UTF8`
branch proceeds (after an error message) even when the encoding is not
UTF-8, keeping only BMP scalars. -/
def decode_flags (st : IStream) (t : Flag_Type) (enc : Encoding) :
    FlagsOutcome × IStream :=
  match t with
  | .FLAG_SINGLE_CHAR =>
    match readToken st with
    | (none, st') => (.terminated, st')
    | (some s, st') => (.emitted s, st')
  | .FLAG_DOUBLE_CHAR =>
    match readToken st with
    | (none, st') => (.emitted [], st')
    | (some s, st') => (.emitted (pairBytes s), st')
  | .FLAG_NUMBER =>
    match readUShort st with
    | (none, st') => (.emitted [], st')
    | (some f, st') =>
      let r := numberCommaLoop st' (st'.data.length + 1)
      (.emitted (f :: r.1), r.2)
  | .FLAG_UTF8 =>
    match readToken st with
    | (none, st') => (.emitted [], st')
    | (some s, st') =>
      (.emitted ((utf8Decode s).filter (fun c => decide (c ≤ 65535))), st')

/-- A `Flag_Set` value: sorted duplicate-free list of flags. -/
abbrev FlagSet := List Nat

/-- One step of the sorted-unique insertion building a `Flag_Set`. -/
def fsInsertOne (x : Nat) : List Nat → List Nat
  | [] => [x]
  | y :: ys =>
    if x < y then x :: y :: ys
    else if x == y then y :: ys
    else y :: fsInsertOne x ys

/-- `Flag_Set` construction from a `u16string`
(`Flag_Set::sort_uniq`: `sort` then `unique`): the sorted list of the
distinct flag values. -/
def mkFlagSet (l : List Nat) : List Nat := l.foldr fsInsertOne []

/-- Union of flag sets (`Flag_Set::insert` concatenates then
re-sorts/uniques). -/
def fsUnion (a b : List Nat) : List Nat := mkFlagSet (a ++ b)

/-- `decode_flags_possible_alias` (`aff_data.cxx`): with a non-empty
alias table, read a `size_t`; in-range positive index returns that alias
set verbatim, anything else returns the empty sequence (with an error
message); only an empty alias table decodes ordinarily. -/
def decode_flags_possible_alias (st : IStream) (t : Flag_Type)
    (enc : Encoding) (flag_aliases : List FlagSet) : FlagsOutcome × IStream :=
  if flag_aliases.isEmpty then decode_flags st t enc
  else
    match readSizeT st with
    | (some i, st') =>
      if 0 < i ∧ i ≤ flag_aliases.length then
        (.emitted (flag_aliases.getD (i - 1) []), st')
      else (.emitted [], st')
    | (none, st') => (.emitted [], st')

/-- **C2** (refuting theorem).  Under the default `FLAG_SINGLE_CHAR`
type, a line whose flag token is missing (the stream holds no further
token — e.g. the affix line `NOSUGGEST` with nothing after the keyword)
drives `decode_flags` into the `exit(0)` branch: the process terminates
instead of warning, skipping the entry and parsing on. -/
theorem c2_missing_single_char_flag_exits :
    (decode_flags ⟨[], false⟩ .FLAG_SINGLE_CHAR encUTF8).1 = .terminated ∧
    (decode_flags ⟨[32, 32], false⟩ .FLAG_SINGLE_CHAR encUTF8).1
      = .terminated := by
  decide

/-- **C4** (counterexample).  Alias table `[{A,B}]`, token `"x"`: the
alias-aware decoder returns the empty flag sequence, while ordinary
decoding of the same token under `SINGLE_CHAR`/UTF-8 would give
`{0x78}` — the claim's "otherwise decode as an ordinary flag sequence"
does not happen when the alias table is non-empty. -/
theorem c4_counterexample :
    (decode_flags_possible_alias ⟨[120], false⟩ .FLAG_SINGLE_CHAR encUTF8
      [[65, 66]]).1 = .emitted [] ∧
    (decode_flags ⟨[120], false⟩ .FLAG_SINGLE_CHAR encUTF8).1
      = .emitted [120] ∧
    FlagsOutcome.emitted ([] : List Nat) ≠ .emitted [120] := by
  decide

/-- **C4** (amended theorem).  Whenever the flag-alias table is
non-empty: if the stream parses as an integer `i` with `1 ≤ i ≤ |aliases|`
the decoder returns the i-th alias set verbatim; if the integer is out of
range or the token does not parse as an integer it returns the *empty*
flag sequence (after a warning).  The token is decoded as an ordinary
flag sequence only when the alias table is empty. -/
theorem c4_alias_decoder (st : IStream) (t : Flag_Type) (enc : Encoding)
    (aliases : List FlagSet) (h : aliases ≠ []) :
    (∀ i st', readSizeT st = (some i, st') → 0 < i → i ≤ aliases.length →
      decode_flags_possible_alias st t enc aliases
        = (.emitted (aliases.getD (i - 1) []), st')) ∧
    (∀ i st', readSizeT st = (some i, st') → ¬ (0 < i ∧ i ≤ aliases.length) →
      decode_flags_possible_alias st t enc aliases = (.emitted [], st')) ∧
    (∀ st', readSizeT st = (none, st') →
      decode_flags_possible_alias st t enc aliases
        = (.emitted [], st')) := by
  have hne : aliases.isEmpty = false := by
    cases aliases
    · exact absurd rfl h
    · rfl
  refine ⟨?_, ?_, ?_⟩
  · intro i st' hr h1 h2
    rw [decode_flags_possible_alias, if_neg (by simp [hne]), hr]
    show (if 0 < i ∧ i ≤ aliases.length
        then (FlagsOutcome.emitted (aliases.getD (i - 1) []), st')
        else (FlagsOutcome.emitted [], st')) = _
    rw [if_pos ⟨h1, h2⟩]
  · intro i st' hr hn
    rw [decode_flags_possible_alias, if_neg (by simp [hne]), hr]
    show (if 0 < i ∧ i ≤ aliases.length
        then (FlagsOutcome.emitted (aliases.getD (i - 1) []), st')
        else (FlagsOutcome.emitted [], st')) = _
    rw [if_neg hn]
  · intro st' hr
    rw [decode_flags_possible_alias, if_neg (by simp [hne]), hr]

/-- Witness for C4 at a concrete input: aliases `[{A}, {B,C}]`, token
`"2"`. -/
theorem c4_witness :
    ([[65], [66, 67]] : List FlagSet) ≠ [] ∧
    readSizeT ⟨[50], false⟩ = (some 2, ⟨[], false⟩) ∧
    decode_flags_possible_alias ⟨[50], false⟩ .FLAG_SINGLE_CHAR encUTF8
      [[65], [66, 67]] = (.emitted [66, 67], ⟨[], false⟩) :=
  ⟨by decide, by decide,
   (c4_alias_decoder ⟨[50], false⟩ .FLAG_SINGLE_CHAR encUTF8
     [[65], [66, 67]] (by decide)).1 2 ⟨[], false⟩ (by decide) (by decide)
     (by decide)⟩

/-! ## Dictionary parsing (`Aff_Data::parse_dic` in `aff_data.cxx`) -/

/-- `HIDDEN_HOMONYM_FLAG = char16_t(-1) = 0xFFFF`. -/
def HIDDEN_HOMONYM : Nat := 65535

/-- The casing classes of the spec (§3). -/
inductive Casing where
  | ALL_LOWER
  | ALL_CAPITAL
  | PASCAL
  | CAMEL
  | MIXED
  deriving DecidableEq

/-- An ASCII uppercase letter. -/
def isUpperB (c : Nat) : Bool := decide (65 ≤ c) && decide (c ≤ 90)

/-- An ASCII lowercase letter. -/
def isLowerB (c : Nat) : Bool := decide (97 ≤ c) && decide (c ≤ 122)

/-- Modelled from the spec: `classify_casing` lives in
`locale_utils.cxx`, which is not among the given sources.  The spec (§3)
gives the classes `{ALL_LOWER, ALL_CAPITAL, PASCAL, CAMEL, MIXED}`
computed under the affix file's locale; modelled for ASCII under an
English locale: no uppercase letter → `ALL_LOWER`; no lowercase letter →
`ALL_CAPITAL`; both present → `PASCAL` when the first character is
uppercase, `CAMEL` when it is lowercase, `MIXED` otherwise. -/
def classify_casing (w : Str) : Casing :=
  if !(w.any isUpperB) then .ALL_LOWER
  else if !(w.any isLowerB) then .ALL_CAPITAL
  else
    match w with
    | [] => .ALL_LOWER
    | c :: _ =>
      if isUpperB c then .PASCAL
      else if isLowerB c then .CAMEL
      else .MIXED

/-- Modelled from the spec: `boost::locale::to_upper` under the en_US
locale, restricted to ASCII input. -/
def to_upper (w : Str) : Str := w.map (fun c => if isLowerB c then c - 32 else c)

/-- One entry of the Dic Map (`words`, a multimap from surface form to
`Flag_Set`); the map is modelled as the list of its entries in insertion
order (the iteration order of the unordered multimap is unspecified and
no claim depends on it). -/
abbrev DicEntry := Str × FlagSet

/-- The per-word insertion of `parse_dic` (the `switch (casing)` block):
`ALL_CAPITAL` replaces the flags of an existing hidden-homonym entry or
inserts; `PASCAL`/`CAMEL` insert the entry as given and — unless an entry
for the uppercase form already carries `HIDDEN_HOMONYM` — additionally
insert the uppercase form with `flags + HIDDEN_HOMONYM_FLAG`; any other
casing just inserts.  (`words.emplace` is an append; the equal-range
search is a scan of the entries with that key.) -/
def dicInsert (words : List DicEntry) (word : Str) (flags : List Nat) :
    List DicEntry :=
  match classify_casing word with
  | .ALL_CAPITAL =>
    match words.findIdx? (fun e => e.1 == word && e.2.contains HIDDEN_HOMONYM)
      with
    | some idx => words.set idx (word, mkFlagSet flags)
    | none => words ++ [(word, mkFlagSet flags)]
  | .PASCAL | .CAMEL =>
    let w1 := words ++ [(word, mkFlagSet flags)]
    let up := to_upper word
    if w1.any (fun e => e.1 == up && e.2.contains HIDDEN_HOMONYM) then w1
    else w1 ++ [(up, mkFlagSet (flags ++ [HIDDEN_HOMONYM]))]
  | _ => words ++ [(word, mkFlagSet flags)]

/-- The unescaped-slash scan of `parse_dic`: find `'/'` from `pos`; stop
at `npos`, at position 0, or when the preceding byte is not `'\\'`;
otherwise continue after it.  `fuel` bounds the iterations
(`line.length + 1` suffices, the position strictly increases). -/
def findUnescapedSlash (line : Str) (pos : Nat) : Nat → Option Nat
  | 0 => none
  | fuel + 1 =>
    match strFindAux line [47] pos (line.length + 1) with
    | none => none
    | some p =>
      if p == 0 then some p
      else if line.getD (p - 1) 0 == 92 then
        findUnescapedSlash line (p + 1) fuel
      else some p

/-- `find_first_not_of(' ', i)`: first position `≥ i` holding a byte
other than `' '`. -/
def findNotSpaceAux (line : Str) (i : Nat) : Nat → Option Nat
  | 0 => none
  | fuel + 1 =>
    if line.length ≤ i then none
    else if line.getD i 0 == 32 then findNotSpaceAux line (i + 1) fuel
    else some i

/-- `dic_find_end_of_word_heuristics` (`aff_data.cxx`): scan for a space
followed (after further spaces) by a two-lowercase-letter `xx:`
morphological-field marker ending at least 3 bytes before the end;
return the position of that space, else `npos`. -/
def heurLoop (line : Str) (a : Nat) : Nat → Option Nat
  | 0 => none
  | fuel + 1 =>
    match strFindAux line [32] a (line.length + 1) with
    | none => none
    | some a' =>
      match findNotSpaceAux line a' (line.length + 1) with
      | none => none
      | some b =>
        if line.length - 3 < b then none
        else if isLowerB (line.getD b 0) && isLowerB (line.getD (b + 1) 0) &&
            (line.getD (b + 2) 0 == 58) then some a'
        else heurLoop line b fuel

/-- `dic_find_end_of_word_heuristics`. -/
def dic_find_end_of_word_heuristics (line : Str) : Option Nat :=
  if line.length < 4 then none
  else heurLoop line 0 (line.length + 1)

/-- Processing of one dictionary line by `parse_dic` (per-line body of
the `while (getline(...))` loop): split at the earliest unescaped `'/'`
and decode the (possibly aliased) flags, else split at a tab, else use
the morphological-field heuristic; drop empty words; insert under the
casing discipline.  `none` models process termination via the
`exit(0)` reachable from `decode_flags`. -/
def parse_dic_line (t : Flag_Type) (enc : Encoding)
    (flag_aliases : List FlagSet) (words : List DicEntry) (line : Str) :
    Option (List DicEntry) :=
  match findUnescapedSlash line 0 (line.length + 1) with
  | some slash_pos =>
    let word := line.take slash_pos
    let st : IStream := ⟨line.drop (slash_pos + 1), false⟩
    match decode_flags_possible_alias st t enc flag_aliases with
    | (.terminated, _) => none
    | (.emitted flags, st') =>
      if st'.fail then some words
      else if word.isEmpty then some words
      else some (dicInsert words word flags)
  | none =>
    match strFindAux line [9] 0 (line.length + 1) with
    | some tabPos =>
      let word := line.take tabPos
      if word.isEmpty then some words else some (dicInsert words word [])
    | none =>
      let word := match dic_find_end_of_word_heuristics line with
        | some e => line.take e
        | none => line
      if word.isEmpty then some words else some (dicInsert words word [])

theorem fsInsertOne_mem (x y : Nat) :
    ∀ l : List Nat, (y ∈ fsInsertOne x l ↔ y = x ∨ y ∈ l)
  | [] => by simp [fsInsertOne]
  | z :: zs => by
    rw [fsInsertOne]
    by_cases h1 : x < z
    · simp [h1]
    · rw [if_neg h1]
      by_cases h2 : x = z
      · subst h2
        simp only [beq_self_eq_true, if_pos]
        constructor
        · intro h
          exact Or.inr h
        · rintro (rfl | h)
          · exact List.mem_cons_self _ _
          · exact h
      · rw [if_neg (by simpa using h2)]
        rw [List.mem_cons, List.mem_cons, fsInsertOne_mem x y zs]
        tauto

theorem fsInsertOne_pairwise (x : Nat) :
    ∀ l : List Nat, l.Pairwise (· < ·) →
      (fsInsertOne x l).Pairwise (· < ·)
  | [], _ => List.pairwise_singleton _ _
  | z :: zs, h => by
    rw [fsInsertOne]
    rw [List.pairwise_cons] at h
    obtain ⟨hz, hzs⟩ := h
    by_cases h1 : x < z
    · rw [if_pos h1, List.pairwise_cons]
      refine ⟨?_, List.pairwise_cons.mpr ⟨hz, hzs⟩⟩
      intro b hb
      rcases List.mem_cons.mp hb with rfl | hb'
      · exact h1
      · exact Nat.lt_trans h1 (hz b hb')
    · rw [if_neg h1]
      by_cases h2 : x = z
      · rw [if_pos (by simpa using h2), List.pairwise_cons]
        exact ⟨hz, hzs⟩
      · rw [if_neg (by simpa using h2), List.pairwise_cons]
        constructor
        · intro b hb
          rcases (fsInsertOne_mem x b zs).mp hb with rfl | hb'
          · omega
          · exact hz b hb'
        · exact fsInsertOne_pairwise x zs hzs

theorem mkFlagSet_pairwise : ∀ l : List Nat, (mkFlagSet l).Pairwise (· < ·)
  | [] => List.Pairwise.nil
  | x :: xs => fsInsertOne_pairwise x (mkFlagSet xs) (mkFlagSet_pairwise xs)

theorem mkFlagSet_mem (y : Nat) : ∀ l : List Nat, (y ∈ mkFlagSet l ↔ y ∈ l)
  | [] => Iff.rfl
  | x :: xs => by
    show y ∈ fsInsertOne x (mkFlagSet xs) ↔ _
    rw [fsInsertOne_mem, mkFlagSet_mem y xs, List.mem_cons]

theorem sorted_nat_eq_of_mem_iff {l₁ l₂ : List Nat}
    (h₁ : l₁.Pairwise (· < ·)) (h₂ : l₂.Pairwise (· < ·))
    (h : ∀ x, x ∈ l₁ ↔ x ∈ l₂) : l₁ = l₂ := by
  haveI : IsAntisymm Nat (· < ·) :=
    ⟨fun a b hab hba => absurd hba (Nat.lt_asymm hab)⟩
  refine List.eq_of_perm_of_sorted ?_ h₁ h₂
  exact (List.perm_ext_iff_of_nodup h₁.nodup h₂.nodup).mpr h

/-- Appending then normalizing equals taking the union of the
normalizations: `mkFlagSet (a ++ b) = fsUnion (mkFlagSet a) b`. -/
theorem mkFlagSet_append_left (a b : List Nat) :
    mkFlagSet (a ++ b) = fsUnion (mkFlagSet a) b := by
  unfold fsUnion
  apply sorted_nat_eq_of_mem_iff (mkFlagSet_pairwise _) (mkFlagSet_pairwise _)
  intro x
  rw [mkFlagSet_mem, mkFlagSet_mem, List.mem_append, List.mem_append,
    mkFlagSet_mem]

/-- **C8.** When `parse_dic` inserts a word whose casing classifies as
`PASCAL` or `CAMEL`, it appends the entry as given; then, unless an entry
for the uppercase form already carries `HIDDEN_HOMONYM`, it additionally
appends the uppercase form with flag set equal to the entry's flags
united with `{HIDDEN_HOMONYM}`.  In particular the line `"Ab/X"`
(UTF-8, single-char flags, no aliases) produces exactly the entries
`("Ab", {X})` and `("AB", {X, HIDDEN_HOMONYM})`.  (`classify_casing` and
the locale uppercase are modelled from the spec; see their doc
comments.) -/
theorem c8_hidden_homonym :
    (∀ (words : List DicEntry) (word : Str) (flags : List Nat),
      (classify_casing word = .PASCAL ∨ classify_casing word = .CAMEL) →
      dicInsert words word flags =
        if (words ++ [(word, mkFlagSet flags)]).any
            (fun e => e.1 == to_upper word && e.2.contains HIDDEN_HOMONYM)
        then words ++ [(word, mkFlagSet flags)]
        else words ++ [(word, mkFlagSet flags),
          (to_upper word, fsUnion (mkFlagSet flags) [HIDDEN_HOMONYM])]) ∧
    parse_dic_line .FLAG_SINGLE_CHAR encUTF8 [] [] [65, 98, 47, 88]
      = some [([65, 98], [88]), ([65, 66], [88, HIDDEN_HOMONYM])] := by
  constructor
  · intro words word flags hcase
    have hsplit : dicInsert words word flags =
        (let w1 := words ++ [(word, mkFlagSet flags)]
        let up := to_upper word
        if w1.any (fun e => e.1 == up && e.2.contains HIDDEN_HOMONYM) then w1
        else w1 ++ [(up, mkFlagSet (flags ++ [HIDDEN_HOMONYM]))]) := by
      rcases hcase with h | h <;> · rw [dicInsert, h]
    rw [hsplit]
    show (if _ then _ else _) = _
    split
    · rfl
    · rw [mkFlagSet_append_left]
      simp
  · decide

/-- Witness for C8 at the concrete input `"Ab"`, flags `"X"`. -/
theorem c8_witness :
    (classify_casing [65, 98] = .PASCAL ∨ classify_casing [65, 98] = .CAMEL) ∧
    dicInsert [] [65, 98] [88]
      = [([65, 98], [88]), ([65, 66], [88, HIDDEN_HOMONYM])] :=
  ⟨Or.inl (by decide),
   (c8_hidden_homonym.1 [] [65, 98] [88] (Or.inl (by decide))).trans
     (by decide)⟩

end Nuspell
